import Mathlib

/-!
# Scroll-based animation (`src/script.js`)

A shallow embedding of the page script: the module-level variables become the fields of
one `World` record, and every callback registered by the script (debug-panel change,
scroll, mousemove, resize, the per-frame `tick`) becomes a function `World → World`.

Conventions of the embedding:

* In the callbacks (`World → World`) JavaScript numbers are exact rationals (`ℚ`).
* Where the rounding of IEEE 754 binary64 decides a property (the camera formula of
  `tick` and the smoothing of the camera rig), the same expressions are also embedded
  with every operation rounded by `round64`: `cameraY64`, `rigStep64`, `rigTick64`.
* Values read from the host (`window.scrollY`, `event.clientX`, `window.innerWidth`,
  `clock.getElapsedTime()`, ...) are arguments of the callback that reads them.
* `gsap.to(...)` is fire-and-forget in the script; the embedding records every tween it
  starts in the list `World.tweens`.  The interpolation the tweening library performs
  afterwards on its own ticker is outside the script and is not modelled.
* `renderer.render` and `window.requestAnimationFrame` do not write any variable of the
  script; the frame loop is the repeated application of `tick`.
-/

namespace ScrollAnimation

/-- Three numeric components, as in `THREE.Vector3` and `THREE.Euler`. -/
structure Vec3 where
  x : ℚ
  y : ℚ
  z : ℚ
  deriving DecidableEq, Repr

/-- The part of a `THREE.Mesh` the script reads or writes. -/
structure Mesh where
  position : Vec3
  rotation : Vec3
  deriving DecidableEq, Repr

/-- The `sizes` object. -/
structure Sizes where
  width : ℚ
  height : ℚ
  deriving DecidableEq, Repr

/-- The `cursor` object. -/
structure Cursor where
  x : ℚ
  y : ℚ
  deriving DecidableEq, Repr

/-- The part of the perspective camera the script writes. -/
structure Camera where
  position : Vec3
  aspect : ℚ
  deriving DecidableEq, Repr

/-- A tween started with `gsap.to(sectionMeshes[target].rotation, ...)`: the index of
the mesh whose rotation it animates, its duration, its easing and the relative amounts
given as `'+=6'`, `'+=3'`, `'+=1.5'`. -/
structure Tween where
  target : Nat
  duration : ℚ
  ease : String
  x : ℚ
  y : ℚ
  z : ℚ
  deriving DecidableEq, Repr

/-- A color value as handed over by the debug panel (`'#f5402c'`). -/
abbrev Color := String

/-- The module-level state of `script.js`. -/
structure World where
  /-- The field `parameters.materialColor`. -/
  materialColor : Color
  /-- The color of the toon material, `material.color`. -/
  materialColorValue : Color
  /-- The color of the particle material, `particlesMaterial.color`. -/
  particlesColorValue : Color
  mesh1 : Mesh
  mesh2 : Mesh
  mesh3 : Mesh
  scrollY : ℚ
  currentSection : Nat
  cursor : Cursor
  sizes : Sizes
  cameraGroupPosition : Vec3
  camera : Camera
  pixelRatio : ℚ
  previousTime : ℚ
  /-- Every tween started so far through `gsap.to`, oldest first. -/
  tweens : List Tween
  deriving DecidableEq, Repr

/-- The constant `objectsDistance = 4`. -/
def objectsDistance : ℚ := 4

/-- The constant array `sectionMeshes = [mesh1, mesh2, mesh3]`. -/
def sectionMeshes (w : World) : List Mesh := [w.mesh1, w.mesh2, w.mesh3]

/-- The state after the top-level statements of the script have run, for a window of
inner size `innerWidth × innerHeight`, scrolled to `windowScrollY`, with device pixel
ratio `devicePixelRatio`. -/
def initialWorld (innerWidth innerHeight windowScrollY devicePixelRatio : ℚ) : World :=
  { materialColor := "#f5402c"
    materialColorValue := "#f5402c"
    particlesColorValue := "#f5402c"
    mesh1 := { position := ⟨2, - objectsDistance * 0, 0⟩, rotation := ⟨0, 0, 0⟩ }
    mesh2 := { position := ⟨-2, - objectsDistance * 1, 0⟩, rotation := ⟨0, 0, 0⟩ }
    mesh3 := { position := ⟨2, - objectsDistance * 2, 0⟩, rotation := ⟨0, 0, 0⟩ }
    scrollY := windowScrollY
    currentSection := 0
    cursor := ⟨0, 0⟩
    sizes := ⟨innerWidth, innerHeight⟩
    cameraGroupPosition := ⟨0, 0, 0⟩
    camera := { position := ⟨0, 0, 6⟩, aspect := innerWidth / innerHeight }
    pixelRatio := min devicePixelRatio 2
    previousTime := 0
    tweens := [] }

/-- The `onChange` callback of the color field: `material.color.set(...)` and
`particlesMaterial.color.set(...)`, both with `parameters.materialColor`.
`THREE.Color.set` is library code; it is modelled as storing the value it is given. -/
def onChange (w : World) : World :=
  { w with
    materialColorValue := w.materialColor
    particlesColorValue := w.materialColor }

/-- An edit in the debug panel: the panel writes the new value to
`parameters.materialColor` and then calls the change handler. -/
def editColor (v : Color) (w : World) : World :=
  onChange { w with materialColor := v }

/-- The body of the `forEach` callback of the scroll listener, for one index, on the
variable `currentSection`. -/
def sectionStep (scrollY height : ℚ) (currentSection : Nat) (index : Nat) : Nat :=
  let sectionTop := (index : ℚ) * height
  let sectionBottom := ((index : ℚ) + 1) * height
  if scrollY ≥ sectionTop ∧ scrollY < sectionBottom then index else currentSection

/-- The tween requested by the scroll listener for the mesh of index `target`. -/
def kick (target : Nat) : Tween :=
  { target := target, duration := 1.5, ease := "power2.inOut", x := 6, y := 3, z := 1.5 }

/-- The `scroll` listener.  `sectionMeshes[currentSection]` is `undefined` for an index
outside the array, and reading `.rotation` of it throws before `gsap.to` is called: in
that case no tween is recorded. -/
def scrollListener (windowScrollY : ℚ) (w : World) : World :=
  let scrollY := windowScrollY
  let currentSection :=
    (List.range (sectionMeshes w).length).foldl (sectionStep scrollY w.sizes.height)
      w.currentSection
  let tweens :=
    match (sectionMeshes w)[currentSection]? with
    | some _ => w.tweens ++ [kick currentSection]
    | none => w.tweens
  { w with scrollY := scrollY, currentSection := currentSection, tweens := tweens }

/-- The `mousemove` listener. -/
def mousemoveListener (clientX clientY : ℚ) (w : World) : World :=
  { w with
    cursor :=
      { x := clientX / w.sizes.width - 0.5
        y := clientY / w.sizes.height - 0.5 } }

/-- The `resize` listener. -/
def resizeListener (innerWidth innerHeight devicePixelRatio : ℚ) (w : World) : World :=
  { w with
    sizes := ⟨innerWidth, innerHeight⟩
    camera := { w.camera with aspect := innerWidth / innerHeight }
    pixelRatio := min devicePixelRatio 2 }

/-- The body of the loop `for (const mesh of sectionMeshes)` in `tick`. -/
def animateMesh (deltaTime : ℚ) (mesh : Mesh) : Mesh :=
  { mesh with
    rotation :=
      { mesh.rotation with
        x := mesh.rotation.x + deltaTime * 0.1
        y := mesh.rotation.y + deltaTime * 0.12 } }

/-- The local constant `parallaxX = cursor.x * 0.5` of `tick`. -/
def parallaxX (w : World) : ℚ := w.cursor.x * 0.5

/-- The local constant `parallaxY = - cursor.y * 0.5` of `tick`. -/
def parallaxY (w : World) : ℚ := - w.cursor.y * 0.5

/-- One frame: `tick`, with `elapsedTime` the value of `clock.getElapsedTime()`. -/
def tick (elapsedTime : ℚ) (w : World) : World :=
  let deltaTime := elapsedTime - w.previousTime
  { w with
    previousTime := elapsedTime
    mesh1 := animateMesh deltaTime w.mesh1
    mesh2 := animateMesh deltaTime w.mesh2
    mesh3 := animateMesh deltaTime w.mesh3
    camera :=
      { w.camera with
        position :=
          { w.camera.position with y := - w.scrollY / w.sizes.height * objectsDistance } }
    cameraGroupPosition :=
      { w.cameraGroupPosition with
        x := w.cameraGroupPosition.x
              + (parallaxX w - w.cameraGroupPosition.x) * 5 * deltaTime
        y := w.cameraGroupPosition.y
              + (parallaxY w - w.cameraGroupPosition.y) * 5 * deltaTime } }

/-- What the host can deliver to the script. -/
inductive Event where
  | colorEdit (v : Color)
  | scroll (windowScrollY : ℚ)
  | mousemove (clientX clientY : ℚ)
  | resize (innerWidth innerHeight devicePixelRatio : ℚ)
  | frame (elapsedTime : ℚ)
  deriving DecidableEq, Repr

/-- The callback the script runs for an event. -/
def step (w : World) : Event → World
  | .colorEdit v => editColor v w
  | .scroll y => scrollListener y w
  | .mousemove x y => mousemoveListener x y w
  | .resize iw ih dpr => resizeListener iw ih dpr w
  | .frame t => tick t w

/-- The state after a sequence of events, delivered one at a time in order. -/
def run (events : List Event) (w : World) : World :=
  events.foldl step w

/-- The number of sections, one per mesh of `sectionMeshes`. -/
def sectionCount : Nat := 3

/-- The clamp of the specification: `v` limited to the interval from `lo` to `hi`. -/
def clamp (v lo hi : ℤ) : ℤ := max lo (min v hi)

/-- The section index as the specification words it, for scroll offset `s` and viewport
height `h`. -/
def specSectionIndex (s h : ℚ) : ℤ := clamp ⌊s / h⌋ 0 ((sectionCount : ℤ) - 1)

/-! ## Binary64 arithmetic -/

/-- Rounding of a rational to the nearest integer, a tie going to the even neighbour. -/
def roundTiesEven (q : ℚ) : ℤ :=
  if q - ⌊q⌋ < 1 / 2 then ⌊q⌋
  else if 1 / 2 < q - ⌊q⌋ then ⌊q⌋ + 1
  else if ⌊q⌋ % 2 = 0 then ⌊q⌋ else ⌊q⌋ + 1

/-- The exponent of the unit in the last place of binary64 at `x`: 52 below the binary
exponent of `x` in the normal range, and -1074 throughout the subnormal range. -/
def ulpExp (x : ℚ) : ℤ := max (Int.log 2 |x|) (-1022) - 52

/-- The value of a binary64 operation whose exact result is `x`: `x` rounded to the
nearest multiple of its unit in the last place, ties to even (the default rounding of
IEEE 754, with gradual underflow).  Overflow to `Infinity` is not modelled: the value
agrees with the hardware as long as it stays below `2 ^ 1024` in magnitude. -/
def round64 (x : ℚ) : ℚ := (roundTiesEven (x / 2 ^ ulpExp x) : ℚ) * 2 ^ ulpExp x

/-- The expression `- scrollY / sizes.height * objectsDistance` of `tick`, evaluated in
binary64: the negation is exact, the division and the product are rounded. -/
def cameraY64 (scrollY height : ℚ) : ℚ :=
  round64 (round64 (- scrollY / height) * objectsDistance)

/-- The local constant `parallaxX = cursor.x * 0.5` of `tick`, evaluated in binary64. -/
def parallaxX64 (cursor : Cursor) : ℚ := round64 (cursor.x * 0.5)

/-- The local constant `parallaxY = - cursor.y * 0.5` of `tick`, evaluated in binary64. -/
def parallaxY64 (cursor : Cursor) : ℚ := round64 (- cursor.y * 0.5)

/-- The statement `position += (parallax - position) * 5 * deltaTime` of `tick` on one
axis, evaluated in binary64: the subtraction, the two products and the sum are each
rounded. -/
def rigStep64 (position parallax deltaTime : ℚ) : ℚ :=
  round64 (position + round64 (round64 (round64 (parallax - position) * 5) * deltaTime))

/-- The two smoothing statements of `tick` on `cameraGroup.position`, in binary64. -/
def rigTick64 (cursor : Cursor) (deltaTime : ℚ) (position : Vec3) : Vec3 :=
  { position with
    x := rigStep64 position.x (parallaxX64 cursor) deltaTime
    y := rigStep64 position.y (parallaxY64 cursor) deltaTime }

/-- The rig position after `n` consecutive ticks of the same `deltaTime`, with the cursor
at rest, in binary64. -/
def runRig64 (cursor : Cursor) (deltaTime : ℚ) : Nat → Vec3 → Vec3
  | 0, position => position
  | n + 1, position => rigTick64 cursor deltaTime (runRig64 cursor deltaTime n position)

/-! ## Unfolding lemmas -/

/-- The `forEach` of the scroll listener visits the indices 0, 1, 2 in order. -/
theorem scrollListener_currentSection (y : ℚ) (w : World) :
    (scrollListener y w).currentSection =
      sectionStep y w.sizes.height
        (sectionStep y w.sizes.height (sectionStep y w.sizes.height w.currentSection 0) 1) 2 := by
  rfl

/-- Inside the three sections the loop of the scroll listener ends on `⌊y / h⌋`. -/
theorem sectionStep_inside (y h : ℚ) (c : Nat) (hh : 0 < h) (h0 : 0 ≤ y) (h3 : y < 3 * h) :
    ((sectionStep y h (sectionStep y h (sectionStep y h c 0) 1) 2 : Nat) : ℤ) = ⌊y / h⌋ := by
  rcases lt_or_le y h with h1 | h1
  · have hf : ⌊y / h⌋ = 0 := by
      rw [Int.floor_eq_iff]
      constructor
      · simpa using div_nonneg h0 hh.le
      · simpa using (div_lt_one hh).2 h1
    have e2 : ¬ (2 * h ≤ y) := by intro hc; linarith
    have e1 : ¬ (h ≤ y) := by intro hc; linarith
    simp [sectionStep, hf, e2, e1, h0, h1]
  · rcases lt_or_le y (2 * h) with h2 | h2
    · have hf : ⌊y / h⌋ = 1 := by
        rw [Int.floor_eq_iff]
        constructor
        · simpa using (one_le_div hh).2 h1
        · have : y / h < 2 := (div_lt_iff₀ hh).2 h2
          norm_num; linarith
      have e2 : ¬ (2 * h ≤ y) := by intro hc; linarith
      simp [sectionStep, hf, e2, h1]
      intro _; linarith
    · have hf : ⌊y / h⌋ = 2 := by
        rw [Int.floor_eq_iff]
        constructor
        · have : (2 : ℚ) ≤ y / h := (le_div_iff₀ hh).2 h2
          simpa using this
        · have : y / h < 3 := (div_lt_iff₀ hh).2 h3
          norm_num; linarith
      simp [sectionStep, hf, h2]
      intro _; linarith

/-- Outside the three sections no test of the loop succeeds. -/
theorem sectionStep_outside (y h : ℚ) (c : Nat) (hh : 0 < h) (ho : y < 0 ∨ 3 * h ≤ y) :
    sectionStep y h (sectionStep y h (sectionStep y h c 0) 1) 2 = c := by
  rcases ho with ho | ho
  · have e0 : ¬ (0 ≤ y) := not_le.2 ho
    have e1 : ¬ (h ≤ y) := by intro hc; linarith
    have e2 : ¬ (2 * h ≤ y) := by intro hc; linarith
    simp [sectionStep, e0, e1, e2]
  · have e0 : ¬ (y < h) := by intro hc; linarith
    have e1 : ¬ (y < (1 + 1) * h) := by intro hc; linarith
    have e2 : ¬ (y < (2 + 1) * h) := by intro hc; linarith
    simp [sectionStep, e0, e1, e2]

/-! ## Invariants of the event loop -/

/-- No callback moves `currentSection` out of the index range of `sectionMeshes`. -/
theorem step_currentSection_lt (w : World) (e : Event) (hw : w.currentSection < 3) :
    (step w e).currentSection < 3 := by
  cases e with
  | colorEdit v => exact hw
  | scroll y =>
    show (scrollListener y w).currentSection < 3
    rw [scrollListener_currentSection]
    simp only [sectionStep]
    split_ifs <;> omega
  | mousemove x y => exact hw
  | resize iw ih dpr => exact hw
  | frame t => exact hw

/-- The index `currentSection` stays in range along every run. -/
theorem run_currentSection_lt (events : List Event) (w : World) (hw : w.currentSection < 3) :
    (run events w).currentSection < 3 := by
  induction events generalizing w with
  | nil => exact hw
  | cons e es ih => exact ih (step w e) (step_currentSection_lt w e hw)

/-- No callback writes the position of a section mesh. -/
theorem step_mesh_position (w : World) (e : Event) :
    (sectionMeshes (step w e)).map Mesh.position = (sectionMeshes w).map Mesh.position := by
  cases e <;> rfl

/-- The positions of the section meshes are the same after every run. -/
theorem run_mesh_position (events : List Event) (w : World) :
    (sectionMeshes (run events w)).map Mesh.position = (sectionMeshes w).map Mesh.position := by
  induction events generalizing w with
  | nil => rfl
  | cons e es ih => exact (ih (step w e)).trans (step_mesh_position w e)

/-! ## Further helper lemmas -/

/-- The spec's clamp is the identity on 0, 1 and 2. -/
theorem clamp_of_mem (v : ℤ) (h0 : 0 ≤ v) (h2 : v ≤ 2) :
    clamp v 0 ((sectionCount : ℤ) - 1) = v := by
  simp only [clamp, sectionCount]
  norm_num
  omega

/-- With the section index in range, the scroll listener starts one tween on it. -/
theorem scrollListener_tweens (s : ℚ) (w : World)
    (h : (scrollListener s w).currentSection < 3) :
    (scrollListener s w).tweens = w.tweens ++ [kick (scrollListener s w).currentSection] := by
  simp only [scrollListener] at h ⊢
  generalize List.foldl (sectionStep s w.sizes.height) w.currentSection
    (List.range (sectionMeshes w).length) = c at h ⊢
  interval_cases c <;> rfl

/-- No callback but the color handler writes a material color, and that one writes the
same value to both. -/
theorem step_colors_equal (w : World) (e : Event)
    (h : w.materialColorValue = w.particlesColorValue) :
    (step w e).materialColorValue = (step w e).particlesColorValue := by
  cases e with
  | colorEdit v => rfl
  | scroll y => exact h
  | mousemove x y => exact h
  | resize iw ih dpr => exact h
  | frame t => exact h

/-- The two material colors agree along every run that starts with them equal. -/
theorem run_colors_equal (events : List Event) (w : World)
    (h : w.materialColorValue = w.particlesColorValue) :
    (run events w).materialColorValue = (run events w).particlesColorValue := by
  induction events generalizing w with
  | nil => exact h
  | cons e es ih => exact ih (step w e) (step_colors_equal w e h)

/-- The scroll listener does not write `sizes`. -/
theorem scrollListener_sizes (s : ℚ) (w : World) : (scrollListener s w).sizes = w.sizes := rfl

/-- The scroll listener stores the offset it is given. -/
theorem scrollListener_scrollY (s : ℚ) (w : World) : (scrollListener s w).scrollY = s := rfl

/-- The vertical camera position written by a tick. -/
theorem tick_camera_y (t : ℚ) (w : World) :
    (tick t w).camera.position.y = - w.scrollY / w.sizes.height * objectsDistance := rfl

/-! ## Rounding to binary64 -/

/-- An integer within one half of a value is its rounding. -/
theorem roundTiesEven_of_lt (q : ℚ) (n : ℤ) (h : |q - n| < 1 / 2) : roundTiesEven q = n := by
  rw [abs_lt] at h
  unfold roundTiesEven
  have hf1 : ((⌊q⌋ : ℤ) : ℚ) ≤ q := Int.floor_le q
  have hf2 : q < ⌊q⌋ + 1 := Int.lt_floor_add_one q
  split_ifs with h1 h2 h3
  · have : (⌊q⌋ : ℚ) < n + 1 := by linarith
    have : ((n : ℤ) : ℚ) < ⌊q⌋ + 1 := by linarith
    have a1 : ⌊q⌋ < n + 1 := by exact_mod_cast ‹(⌊q⌋ : ℚ) < n + 1›
    have a2 : n < ⌊q⌋ + 1 := by exact_mod_cast this
    omega
  · have b1 : ((n : ℤ) : ℚ) < ⌊q⌋ + 1 + 1 := by linarith
    have b2 : (⌊q⌋ : ℚ) < n := by linarith
    have a1 : n < ⌊q⌋ + 1 + 1 := by exact_mod_cast b1
    have a2 : ⌊q⌋ < n := by exact_mod_cast b2
    omega
  · exfalso
    have e : q - ⌊q⌋ = 1 / 2 := le_antisymm (not_lt.1 h2) (not_lt.1 h1)
    have b1 : ((n : ℤ) : ℚ) < ⌊q⌋ + 1 := by linarith
    have b2 : (⌊q⌋ : ℚ) < n := by linarith
    have a1 : n < ⌊q⌋ + 1 := by exact_mod_cast b1
    have a2 : ⌊q⌋ < n := by exact_mod_cast b2
    omega
  · exfalso
    have e : q - ⌊q⌋ = 1 / 2 := le_antisymm (not_lt.1 h2) (not_lt.1 h1)
    have b1 : ((n : ℤ) : ℚ) < ⌊q⌋ + 1 := by linarith
    have b2 : (⌊q⌋ : ℚ) < n := by linarith
    have a1 : n < ⌊q⌋ + 1 := by exact_mod_cast b1
    have a2 : ⌊q⌋ < n := by exact_mod_cast b2
    omega

/-- An integer rounds to itself. -/
theorem roundTiesEven_intCast (n : ℤ) : roundTiesEven (n : ℚ) = n :=
  roundTiesEven_of_lt _ n (by simp)

/-- A tie goes to the even neighbour. -/
theorem roundTiesEven_tie (q : ℚ) (n : ℤ) (h : q = n + 1 / 2) :
    roundTiesEven q = if n % 2 = 0 then n else n + 1 := by
  have hf : ⌊q⌋ = n := by
    rw [Int.floor_eq_iff]
    constructor <;> linarith
  unfold roundTiesEven
  rw [hf]
  have e : q - (n : ℚ) = 1 / 2 := by linarith
  rw [e]
  simp

/-- The binary exponent of a value between two consecutive powers of two. -/
theorem log_two_eq (x : ℚ) (e : ℤ) (h1 : 2 ^ e ≤ x) (h2 : x < 2 ^ (e + 1)) :
    Int.log 2 x = e := by
  have hx : 0 < x := lt_of_lt_of_le (by positivity) h1
  have a1 : e ≤ Int.log 2 x := (Int.zpow_le_iff_le_log (by norm_num) hx).1 (by exact_mod_cast h1)
  have a2 : Int.log 2 x < e + 1 := (Int.lt_zpow_iff_log_lt (by norm_num) hx).1 (by exact_mod_cast h2)
  omega

/-- Evaluation of a rounding from the binade of the value and the rounding of its
significand. -/
theorem round64_eval (x : ℚ) (e n : ℤ) (h1 : 2 ^ e ≤ |x|) (h2 : |x| < 2 ^ (e + 1))
    (he : -1022 ≤ e) (hn : roundTiesEven (x / 2 ^ (e - 52)) = n) :
    round64 x = n * 2 ^ (e - 52) := by
  have hl := log_two_eq |x| e h1 h2
  have hu : ulpExp x = e - 52 := by
    unfold ulpExp
    rw [hl, max_eq_left he]
  unfold round64
  rw [hu, hn]

/-- The rounded value is the floor or the floor plus one. -/
theorem roundTiesEven_cases (q : ℚ) : roundTiesEven q = ⌊q⌋ ∨ roundTiesEven q = ⌊q⌋ + 1 := by
  unfold roundTiesEven
  split_ifs <;> simp

/-- Rounding to an integer moves a value by at most one half. -/
theorem roundTiesEven_abs_sub_le (q : ℚ) : |(roundTiesEven q : ℚ) - q| ≤ 1 / 2 := by
  have hf1 : ((⌊q⌋ : ℤ) : ℚ) ≤ q := Int.floor_le q
  have hf2 : q < ⌊q⌋ + 1 := Int.lt_floor_add_one q
  rw [abs_le]
  unfold roundTiesEven
  split_ifs with h1 h2 h3
  · constructor <;> linarith
  · push_cast
    constructor <;> linarith
  · have e : q - ⌊q⌋ = 1 / 2 := le_antisymm (not_lt.1 h2) (not_lt.1 h1)
    constructor <;> linarith
  · have e : q - ⌊q⌋ = 1 / 2 := le_antisymm (not_lt.1 h2) (not_lt.1 h1)
    push_cast
    constructor <;> linarith

/-- Rounding to an integer is monotone. -/
theorem roundTiesEven_mono (q r : ℚ) (h : q ≤ r) : roundTiesEven q ≤ roundTiesEven r := by
  have hfl : ⌊q⌋ ≤ ⌊r⌋ := Int.floor_mono h
  rcases lt_or_eq_of_le hfl with hlt | heq
  · have h1 : roundTiesEven q ≤ ⌊q⌋ + 1 := by
      rcases roundTiesEven_cases q with e | e <;> omega
    have h2 : ⌊r⌋ ≤ roundTiesEven r := by
      rcases roundTiesEven_cases r with e | e <;> omega
    omega
  · unfold roundTiesEven
    rw [← heq]
    have hd : q - ⌊q⌋ ≤ r - ⌊q⌋ := by linarith
    split_ifs <;> first | omega | (exfalso; linarith)

/-- Rounding to an integer commutes with negation. -/
theorem roundTiesEven_neg (q : ℚ) : roundTiesEven (-q) = - roundTiesEven q := by
  by_cases h : |q - (roundTiesEven q : ℚ)| < 1 / 2
  · apply roundTiesEven_of_lt
    have : -q - ((-roundTiesEven q : ℤ) : ℚ) = -(q - roundTiesEven q) := by push_cast; ring
    rw [this, abs_neg]
    exact h
  · have hle := roundTiesEven_abs_sub_le q
    rw [abs_sub_comm] at hle
    have heq : |q - (roundTiesEven q : ℚ)| = 1 / 2 := le_antisymm hle (not_lt.1 h)
    have hf1 : ((⌊q⌋ : ℤ) : ℚ) ≤ q := Int.floor_le q
    have hf2 : q < ⌊q⌋ + 1 := Int.lt_floor_add_one q
    have hq : q = ⌊q⌋ + 1 / 2 := by
      rcases roundTiesEven_cases q with e | e
      · rw [e] at heq
        rw [abs_of_nonneg (by linarith)] at heq
        linarith
      · rw [e] at heq
        push_cast at heq
        rw [abs_of_nonpos (by linarith)] at heq
        linarith
    have hnq : -q = ((-(⌊q⌋ + 1) : ℤ) : ℚ) + 1 / 2 := by
      push_cast
      linarith
    rw [roundTiesEven_tie (-q) _ hnq, roundTiesEven_tie q _ hq]
    split_ifs <;> omega

/-- The unit in the last place is never below the smallest subnormal. -/
theorem ulpExp_ge (x : ℚ) : -1074 ≤ ulpExp x := by
  unfold ulpExp
  have := le_max_right (Int.log 2 |x|) (-1022)
  omega

/-- The unit in the last place does not depend on the sign. -/
theorem ulpExp_neg (x : ℚ) : ulpExp (-x) = ulpExp x := by
  unfold ulpExp
  rw [abs_neg]

/-- Every value is below 2 ^ 53 units in the last place. -/
theorem abs_lt_ulp (x : ℚ) : |x| < 2 ^ (ulpExp x + 53) := by
  have h1 : |x| < ((2 : ℕ) : ℚ) ^ (Int.log 2 |x| + 1) := Int.lt_zpow_succ_log_self (by norm_num) _
  have h2 : Int.log 2 |x| + 1 ≤ ulpExp x + 53 := by
    unfold ulpExp
    have := le_max_left (Int.log 2 |x|) (-1022)
    omega
  have h3 : ((2 : ℕ) : ℚ) ^ (Int.log 2 |x| + 1) ≤ ((2 : ℕ) : ℚ) ^ (ulpExp x + 53) :=
    zpow_le_zpow_right₀ (by norm_num) h2
  have h4 := lt_of_lt_of_le h1 h3
  exact_mod_cast h4

/-- Above the subnormal range a nonzero value is at least 2 ^ 52 units in the last place. -/
theorem ulp_le_abs (x : ℚ) (hx : x ≠ 0) (hk : -1074 < ulpExp x) :
    2 ^ (ulpExp x + 52) ≤ |x| := by
  have hpos : 0 < |x| := abs_pos.2 hx
  have h1 : ((2 : ℕ) : ℚ) ^ Int.log 2 |x| ≤ |x| := Int.zpow_log_le_self (by norm_num) hpos
  have h2 : ulpExp x + 52 = Int.log 2 |x| := by
    unfold ulpExp at hk ⊢
    rcases le_total (Int.log 2 |x|) (-1022) with h | h
    · rw [max_eq_right h] at hk
      omega
    · rw [max_eq_left h]
      omega
  rw [h2]
  exact_mod_cast h1

/-- In the normal range the unit in the last place follows the binary exponent. -/
theorem ulp_le_abs_of_normal (x : ℚ) (hx : 2 ^ (-1022 : ℤ) ≤ |x|) :
    2 ^ (ulpExp x + 52) ≤ |x| := by
  have hpos : 0 < |x| := lt_of_lt_of_le (by positivity) hx
  have hx2 : ((2 : ℕ) : ℚ) ^ (-1022 : ℤ) ≤ |x| := by exact_mod_cast hx
  have hl : (-1022 : ℤ) ≤ Int.log 2 |x| := (Int.zpow_le_iff_le_log (by norm_num) hpos).1 hx2
  have h1 : ((2 : ℕ) : ℚ) ^ Int.log 2 |x| ≤ |x| := Int.zpow_log_le_self (by norm_num) hpos
  have h2 : ulpExp x + 52 = Int.log 2 |x| := by
    unfold ulpExp
    rw [max_eq_left hl]
    omega
  rw [h2]
  exact_mod_cast h1

/-- Below the normal range the unit in the last place is the smallest subnormal. -/
theorem ulpExp_of_subnormal (x : ℚ) (hx : x ≠ 0) (hs : |x| < 2 ^ (-1022 : ℤ)) :
    ulpExp x = -1074 := by
  have hpos : 0 < |x| := abs_pos.2 hx
  have hs2 : |x| < ((2 : ℕ) : ℚ) ^ (-1022 : ℤ) := by exact_mod_cast hs
  have hl : Int.log 2 |x| < -1022 := (Int.lt_zpow_iff_log_lt (by norm_num) hpos).1 hs2
  unfold ulpExp
  rw [max_eq_right hl.le]
  norm_num

/-- Zero rounds to zero. -/
theorem round64_zero : round64 0 = 0 := by
  unfold round64
  have : roundTiesEven (0 / 2 ^ ulpExp 0) = 0 := by
    rw [zero_div]
    exact_mod_cast roundTiesEven_intCast 0
  rw [this]
  simp

/-- Rounding commutes with negation. -/
theorem round64_neg (x : ℚ) : round64 (-x) = - round64 x := by
  unfold round64
  rw [ulpExp_neg, neg_div, roundTiesEven_neg]
  push_cast
  ring

/-- A whole number of units in the last place is representable. -/
theorem round64_of_int_mul (x : ℚ) (m : ℤ) (h : x = m * 2 ^ ulpExp x) : round64 x = x := by
  have hp : (0 : ℚ) < 2 ^ ulpExp x := by positivity
  have hd : x / 2 ^ ulpExp x = m := by
    rw [div_eq_iff hp.ne']
    exact h
  unfold round64
  rw [hd, roundTiesEven_intCast]
  exact h.symm

/-- A whole multiple of a power of two at least the unit in the last place is representable. -/
theorem round64_of_int_mul_zpow (x : ℚ) (m k : ℤ) (hk : ulpExp x ≤ k) (h : x = m * 2 ^ k) :
    round64 x = x := by
  apply round64_of_int_mul x (m * 2 ^ (k - ulpExp x).toNat)
  generalize ulpExp x = j at hk ⊢
  have e : k = j + ((k - j).toNat : ℤ) := by
    rw [Int.toNat_of_nonneg (by omega)]
    omega
  have h2 : (2 : ℚ) ^ k = 2 ^ (k - j).toNat * 2 ^ j := by
    conv_lhs => rw [e]
    rw [zpow_add₀ (by norm_num), zpow_natCast]
    ring
  rw [h, h2]
  push_cast
  ring

/-- The rounded value written as a whole number of units in the last place. -/
theorem round64_eq_mul (x : ℚ) :
    round64 x = (roundTiesEven (x / 2 ^ ulpExp x) : ℚ) * 2 ^ ulpExp x := rfl

/-- The significand of a rounded value has magnitude at most 2 ^ 53. -/
theorem roundTiesEven_significand_le (x : ℚ) :
    roundTiesEven (x / 2 ^ ulpExp x) ≤ 2 ^ 53 ∧ -(2 ^ 53) ≤ roundTiesEven (x / 2 ^ ulpExp x) := by
  have hp : (0 : ℚ) < 2 ^ ulpExp x := by positivity
  have hlt := abs_lt_ulp x
  rw [zpow_add₀ (by norm_num : (2 : ℚ) ≠ 0)] at hlt
  have habs := abs_lt.1 hlt
  have h1 : x / 2 ^ ulpExp x ≤ ((2 ^ 53 : ℤ) : ℚ) := by
    rw [div_le_iff₀ hp]
    push_cast
    have : (2 : ℚ) ^ (53 : ℤ) = 2 ^ 53 := by norm_num
    rw [this] at habs
    linarith [habs.2]
  have h2 : ((-(2 ^ 53) : ℤ) : ℚ) ≤ x / 2 ^ ulpExp x := by
    rw [le_div_iff₀ hp]
    push_cast
    have : (2 : ℚ) ^ (53 : ℤ) = 2 ^ 53 := by norm_num
    rw [this] at habs
    linarith [habs.1]
  constructor
  · have := roundTiesEven_mono _ _ h1
    rwa [roundTiesEven_intCast] at this
  · have := roundTiesEven_mono _ _ h2
    rwa [roundTiesEven_intCast] at this

/-- A representable value above a given value is above its rounding. -/
theorem round64_le_of_le (x z : ℚ) (hz : round64 z = z) (h : x ≤ z) : round64 x ≤ z := by
  by_cases hx0 : x = 0
  · rw [hx0, round64_zero]
    rw [hx0] at h
    exact h
  have hp : (0 : ℚ) < 2 ^ ulpExp x := by positivity
  by_cases hk : ulpExp x ≤ ulpExp z
  · -- `z` is a whole number of units of `x`
    have e : ulpExp z = ulpExp x + ((ulpExp z - ulpExp x).toNat : ℤ) := by
      rw [Int.toNat_of_nonneg (by omega)]
      omega
    have h2 : (2 : ℚ) ^ ulpExp z = 2 ^ (ulpExp z - ulpExp x).toNat * 2 ^ ulpExp x := by
      conv_lhs => rw [e]
      rw [zpow_add₀ (by norm_num), zpow_natCast]
      ring
    obtain ⟨N, hN⟩ : ∃ N : ℤ, z = N * 2 ^ ulpExp z :=
      ⟨roundTiesEven (z / 2 ^ ulpExp z), hz.symm.trans (round64_eq_mul z)⟩
    have hzm : z = ((N * 2 ^ (ulpExp z - ulpExp x).toNat : ℤ) : ℚ) * 2 ^ ulpExp x := by
      rw [h2] at hN
      refine hN.trans ?_
      push_cast
      ring
    generalize N * 2 ^ (ulpExp z - ulpExp x).toNat = M at hzm
    have hdiv : x / 2 ^ ulpExp x ≤ (M : ℚ) := by
      rw [div_le_iff₀ hp, ← hzm]
      exact h
    have hr := roundTiesEven_mono _ _ hdiv
    rw [roundTiesEven_intCast] at hr
    rw [round64_eq_mul, hzm]
    have hr2 : ((roundTiesEven (x / 2 ^ ulpExp x) : ℤ) : ℚ) ≤ (M : ℚ) := by exact_mod_cast hr
    exact mul_le_mul_of_nonneg_right hr2 hp.le
  · -- `z` is in a lower binade than `x`, so `x` is negative and `z` is above `-2 ^ e`
    have hk2 : ulpExp z < ulpExp x := not_le.1 hk
    have hxk : -1074 < ulpExp x := lt_of_le_of_lt (ulpExp_ge z) hk2
    have hxlow := ulp_le_abs x hx0 hxk
    have hzup := abs_lt_ulp z
    have hpow : (2 : ℚ) ^ (ulpExp z + 53) ≤ 2 ^ (ulpExp x + 52) :=
      zpow_le_zpow_right₀ (by norm_num) (by omega)
    have hzx : |z| < |x| := lt_of_lt_of_le hzup (le_trans hpow hxlow)
    have hxneg : x < 0 := by
      by_contra hc
      have hx' : 0 ≤ x := not_lt.1 hc
      rw [abs_of_nonneg hx', abs_of_nonneg (le_trans hx' h)] at hzx
      linarith
    rw [abs_of_neg hxneg] at hxlow
    have hsplit : (2 : ℚ) ^ (ulpExp x + 52) = 2 ^ 52 * 2 ^ ulpExp x := by
      rw [zpow_add₀ (by norm_num)]
      norm_num
      ring
    have hdiv : x / 2 ^ ulpExp x ≤ ((-(2 ^ 52) : ℤ) : ℚ) := by
      rw [div_le_iff₀ hp]
      push_cast
      linarith
    have hr := roundTiesEven_mono _ _ hdiv
    rw [roundTiesEven_intCast] at hr
    have hr2 : ((roundTiesEven (x / 2 ^ ulpExp x) : ℤ) : ℚ) ≤ ((-(2 ^ 52) : ℤ) : ℚ) := by
      exact_mod_cast hr
    have hle : round64 x ≤ -(2 ^ (ulpExp x + 52)) := by
      rw [round64_eq_mul, hsplit]
      have := mul_le_mul_of_nonneg_right hr2 hp.le
      push_cast at this
      linarith
    have hz2 : -|z| ≤ z := neg_abs_le z
    have hzlt : |z| < 2 ^ (ulpExp x + 52) := lt_of_lt_of_le hzup hpow
    linarith

/-- A representable value below a given value is below its rounding. -/
theorem le_round64_of_le (x z : ℚ) (hz : round64 z = z) (h : z ≤ x) : z ≤ round64 x := by
  have hz' : round64 (-z) = -z := by rw [round64_neg, hz]
  have := round64_le_of_le (-x) (-z) hz' (by linarith)
  rw [round64_neg] at this
  linarith

/-- Rounding keeps the sign. -/
theorem round64_nonneg (x : ℚ) (h : 0 ≤ x) : 0 ≤ round64 x :=
  le_round64_of_le x 0 round64_zero h

/-- In the normal range rounding has relative error at most 2 ^ -53. -/
theorem round64_abs_sub_le (x : ℚ) (hx : 2 ^ (-1022 : ℤ) ≤ |x|) :
    |round64 x - x| ≤ 2 ^ (-53 : ℤ) * |x| := by
  have hp : (0 : ℚ) < 2 ^ ulpExp x := by positivity
  have hlow := ulp_le_abs_of_normal x hx
  have herr := roundTiesEven_abs_sub_le (x / 2 ^ ulpExp x)
  have e1 : round64 x - x
      = ((roundTiesEven (x / 2 ^ ulpExp x) : ℚ) - x / 2 ^ ulpExp x) * 2 ^ ulpExp x := by
    rw [round64_eq_mul]
    field_simp
  rw [e1, abs_mul, abs_of_pos hp]
  have hsplit : (2 : ℚ) ^ (ulpExp x + 52) = 2 ^ 52 * 2 ^ ulpExp x := by
    rw [zpow_add₀ (by norm_num)]
    norm_num
    ring
  rw [hsplit] at hlow
  have h53 : (2 : ℚ) ^ (-53 : ℤ) = 1 / 2 ^ 53 := by norm_num
  rw [h53]
  have h1 : |(roundTiesEven (x / 2 ^ ulpExp x) : ℚ) - x / 2 ^ ulpExp x| * 2 ^ ulpExp x
      ≤ 1 / 2 * 2 ^ ulpExp x := mul_le_mul_of_nonneg_right herr hp.le
  have h2 : (1 : ℚ) / 2 * 2 ^ ulpExp x ≤ 1 / 2 ^ 53 * |x| := by
    have : (1 : ℚ) / 2 ^ 53 * (2 ^ 52 * 2 ^ ulpExp x) ≤ 1 / 2 ^ 53 * |x| :=
      mul_le_mul_of_nonneg_left hlow (by positivity)
    have e : (1 : ℚ) / 2 ^ 53 * (2 ^ 52 * 2 ^ ulpExp x) = 1 / 2 * 2 ^ ulpExp x := by
      norm_num
      ring
    linarith
  exact le_trans h1 h2

/-- Every rounded value is a whole multiple of the smallest subnormal. -/
theorem round64_grid (x : ℚ) : ∃ n : ℤ, round64 x = n * 2 ^ (-1074 : ℤ) := by
  refine ⟨roundTiesEven (x / 2 ^ ulpExp x) * 2 ^ (ulpExp x + 1074).toNat, ?_⟩
  have hk := ulpExp_ge x
  have e : ulpExp x = ((ulpExp x + 1074).toNat : ℤ) + (-1074) := by
    rw [Int.toNat_of_nonneg (by omega)]
    omega
  have h2 : (2 : ℚ) ^ ulpExp x = 2 ^ (ulpExp x + 1074).toNat * 2 ^ (-1074 : ℤ) := by
    conv_lhs => rw [e]
    rw [zpow_add₀ (by norm_num), zpow_natCast]
  rw [round64_eq_mul]
  generalize roundTiesEven (x / 2 ^ ulpExp x) = N
  rw [h2]
  push_cast
  ring

/-- Below the normal range every whole multiple of the smallest subnormal is
representable. -/
theorem round64_of_grid_subnormal (x : ℚ) (n : ℤ) (h : x = n * 2 ^ (-1074 : ℤ))
    (hs : |x| < 2 ^ (-1022 : ℤ)) : round64 x = x := by
  by_cases hx0 : x = 0
  · rw [hx0, round64_zero]
  · apply round64_of_int_mul x n
    rw [ulpExp_of_subnormal x hx0 hs]
    exact h

/-- Rounding is idempotent: a rounded value is representable. -/
theorem round64_idem (x : ℚ) : round64 (round64 x) = round64 x := by
  by_cases hy0 : round64 x = 0
  · rw [hy0, round64_zero]
  by_cases hk : ulpExp (round64 x) ≤ ulpExp x
  · exact round64_of_int_mul_zpow _ _ _ hk (round64_eq_mul x)
  · have hk2 : ulpExp x < ulpExp (round64 x) := not_le.1 hk
    have hyk : -1074 < ulpExp (round64 x) := lt_of_le_of_lt (ulpExp_ge x) hk2
    have hlow := ulp_le_abs _ hy0 hyk
    have hN := roundTiesEven_significand_le x
    have hp : (0 : ℚ) < 2 ^ ulpExp x := by positivity
    have hup : |round64 x| ≤ 2 ^ (ulpExp x + 53) := by
      rw [round64_eq_mul, abs_mul, abs_of_pos hp, zpow_add₀ (by norm_num)]
      have hN1 : ((roundTiesEven (x / 2 ^ ulpExp x) : ℤ) : ℚ) ≤ ((2 ^ 53 : ℤ) : ℚ) := by
        exact_mod_cast hN.1
      have hN2 : ((-(2 ^ 53) : ℤ) : ℚ) ≤ ((roundTiesEven (x / 2 ^ ulpExp x) : ℤ) : ℚ) := by
        exact_mod_cast hN.2
      have habs : |((roundTiesEven (x / 2 ^ ulpExp x) : ℤ) : ℚ)| ≤ 2 ^ 53 := by
        rw [abs_le]
        push_cast at hN1 hN2
        constructor <;> linarith
      have : (2 : ℚ) ^ (53 : ℤ) = 2 ^ 53 := by norm_num
      rw [this, mul_comm ((2 : ℚ) ^ ulpExp x)]
      exact mul_le_mul_of_nonneg_right habs hp.le
    have hkk : ulpExp (round64 x) + 52 ≤ ulpExp x + 53 := by
      have := le_trans hlow hup
      exact (zpow_le_zpow_iff_right₀ (by norm_num : (1 : ℚ) < 2)).1 this
    have hke : ulpExp (round64 x) = ulpExp x + 1 := by omega
    have habs : |round64 x| = 2 ^ (ulpExp x + 53) := by
      apply le_antisymm hup
      have : ulpExp (round64 x) + 52 = ulpExp x + 53 := by omega
      rw [← this]
      exact hlow
    have hsplit : (2 : ℚ) ^ (ulpExp x + 53) = 2 ^ 52 * 2 ^ (ulpExp x + 1) := by
      rw [zpow_add₀ (by norm_num), zpow_add₀ (by norm_num)]
      norm_num
      ring
    rcases abs_cases (round64 x) with ⟨he, _⟩ | ⟨he, _⟩
    · apply round64_of_int_mul_zpow _ (2 ^ 52) (ulpExp x + 1) (by omega)
      rw [← he, habs, hsplit]
      push_cast
      ring
    · apply round64_of_int_mul_zpow _ (-(2 ^ 52)) (ulpExp x + 1) (by omega)
      have : round64 x = -|round64 x| := by linarith
      rw [this, habs, hsplit]
      push_cast
      ring

/-- The smallest normal number is representable. -/
theorem round64_min_normal : round64 (2 ^ (-1022 : ℤ)) = 2 ^ (-1022 : ℤ) := by
  apply round64_of_int_mul_zpow _ 1 (-1022)
  · have hl : Int.log 2 |(2 : ℚ) ^ (-1022 : ℤ)| = -1022 := by
      rw [abs_of_pos (by positivity)]
      exact_mod_cast Int.log_zpow (R := ℚ) (b := 2) (by norm_num) (-1022)
    unfold ulpExp
    rw [hl]
    norm_num
  · simp

/-- A nonnegative multiple of the smallest subnormal rounds up by a factor of at most
`1 + 2 ^ -53`. -/
theorem round64_le_mul (x : ℚ) (n : ℤ) (hx : 0 ≤ x) (hg : x = n * 2 ^ (-1074 : ℤ)) :
    round64 x ≤ x * (1 + 1 / 2 ^ 53) := by
  have hu : (0 : ℚ) ≤ x * (1 / 2 ^ 53) := mul_nonneg hx (by positivity)
  by_cases hs : |x| < 2 ^ (-1022 : ℤ)
  · rw [round64_of_grid_subnormal x n hg hs]
    linarith
  · have h := round64_abs_sub_le x (not_lt.1 hs)
    rw [abs_of_nonneg hx] at h
    have h53 : (2 : ℚ) ^ (-53 : ℤ) = 1 / 2 ^ 53 := by norm_num
    rw [h53] at h
    have := (abs_le.1 h).2
    linarith

/-- The rig step from below: with the rig at or below its target, one binary64 tick
leaves it between its previous position and the target. -/
theorem rigStep64_between_of_le (p T d : ℚ) (hp : round64 p = p) (hT : round64 T = T)
    (hd : 0 < d) (h5 : 5 * d ≤ 1 - 1 / 2 ^ 51) (hle : p ≤ T) :
    p ≤ rigStep64 p T d ∧ rigStep64 p T d ≤ T := by
  unfold rigStep64
  obtain ⟨np, hnp⟩ := round64_grid p
  obtain ⟨nT, hnT⟩ := round64_grid T
  rw [hp] at hnp
  rw [hT] at hnT
  have hD0 : 0 ≤ T - p := by linarith
  have hDg : T - p = ((nT - np : ℤ) : ℚ) * 2 ^ (-1074 : ℤ) := by
    rw [hnp, hnT]
    push_cast
    ring
  -- the three rounded operations of the increment
  have ha0 : 0 ≤ round64 (T - p) := round64_nonneg _ hD0
  have ha1 := round64_le_mul (T - p) _ hD0 hDg
  obtain ⟨na, hna⟩ := round64_grid (T - p)
  have hag : round64 (T - p) * 5 = ((na * 5 : ℤ) : ℚ) * 2 ^ (-1074 : ℤ) := by
    rw [hna]
    push_cast
    ring
  have hb0 : 0 ≤ round64 (round64 (T - p) * 5) :=
    round64_nonneg _ (mul_nonneg ha0 (by norm_num))
  have hb1 := round64_le_mul (round64 (T - p) * 5) _ (mul_nonneg ha0 (by norm_num)) hag
  have hbd0 : 0 ≤ round64 (round64 (T - p) * 5) * d := mul_nonneg hb0 hd.le
  have hc0 : 0 ≤ round64 (round64 (round64 (T - p) * 5) * d) := round64_nonneg _ hbd0
  generalize round64 (T - p) = a at ha0 ha1 hag hb0 hb1 hbd0 hc0 ⊢
  -- bounds on the product before its rounding
  have hu0 : (0 : ℚ) ≤ 1 + 1 / 2 ^ 53 := by positivity
  have hbd : round64 (a * 5) * d ≤ (T - p) * (1 + 1 / 2 ^ 53) ^ 2 * (5 * d) := by
    calc round64 (a * 5) * d ≤ (a * 5 * (1 + 1 / 2 ^ 53)) * d := by gcongr
      _ ≤ (((T - p) * (1 + 1 / 2 ^ 53)) * 5 * (1 + 1 / 2 ^ 53)) * d := by gcongr
      _ = (T - p) * (1 + 1 / 2 ^ 53) ^ 2 * (5 * d) := by ring
  have hbd2 : round64 (a * 5) * d ≤ (T - p) * ((1 + 1 / 2 ^ 53) ^ 2 * (1 - 1 / 2 ^ 51)) := by
    calc round64 (a * 5) * d ≤ (T - p) * (1 + 1 / 2 ^ 53) ^ 2 * (5 * d) := hbd
      _ ≤ (T - p) * (1 + 1 / 2 ^ 53) ^ 2 * (1 - 1 / 2 ^ 51) := by gcongr
      _ = (T - p) * ((1 + 1 / 2 ^ 53) ^ 2 * (1 - 1 / 2 ^ 51)) := by ring
  have hnum2 : ((1 : ℚ) + 1 / 2 ^ 53) ^ 2 * (1 - 1 / 2 ^ 51) ≤ 1 := by norm_num
  have hnum3 : ((1 : ℚ) + 1 / 2 ^ 53) ^ 2 * (1 - 1 / 2 ^ 51) * (1 + 1 / 2 ^ 53) ≤ 1 := by
    norm_num
  have hbdD : round64 (a * 5) * d ≤ T - p := by
    calc round64 (a * 5) * d ≤ (T - p) * ((1 + 1 / 2 ^ 53) ^ 2 * (1 - 1 / 2 ^ 51)) := hbd2
      _ ≤ (T - p) * 1 := by gcongr
      _ = T - p := by ring
  -- the rounded increment does not exceed the distance
  have hc1 : round64 (round64 (a * 5) * d) ≤ T - p := by
    by_cases hs : |round64 (a * 5) * d| < 2 ^ (-1022 : ℤ)
    · by_cases hDs : |T - p| < 2 ^ (-1022 : ℤ)
      · exact round64_le_of_le _ _ (round64_of_grid_subnormal _ _ hDg hDs) hbdD
      · have h1 : round64 (round64 (a * 5) * d) ≤ 2 ^ (-1022 : ℤ) :=
          round64_le_of_le _ _ round64_min_normal (le_of_lt (lt_of_le_of_lt (le_abs_self _) hs))
        have h2 : (2 : ℚ) ^ (-1022 : ℤ) ≤ T - p := by
          have := not_lt.1 hDs
          rwa [abs_of_nonneg hD0] at this
        exact le_trans h1 h2
    · have h := round64_abs_sub_le _ (not_lt.1 hs)
      rw [abs_of_nonneg hbd0] at h
      have h53 : (2 : ℚ) ^ (-53 : ℤ) = 1 / 2 ^ 53 := by norm_num
      rw [h53] at h
      have h1 := (abs_le.1 h).2
      have h2 : round64 (round64 (a * 5) * d)
          ≤ (round64 (a * 5) * d) * (1 + 1 / 2 ^ 53) := by linarith
      calc round64 (round64 (a * 5) * d)
          ≤ (round64 (a * 5) * d) * (1 + 1 / 2 ^ 53) := h2
        _ ≤ ((T - p) * ((1 + 1 / 2 ^ 53) ^ 2 * (1 - 1 / 2 ^ 51))) * (1 + 1 / 2 ^ 53) := by
            gcongr
        _ = (T - p) * ((1 + 1 / 2 ^ 53) ^ 2 * (1 - 1 / 2 ^ 51) * (1 + 1 / 2 ^ 53)) := by ring
        _ ≤ (T - p) * 1 := by gcongr
        _ = T - p := by ring
  generalize round64 (round64 (a * 5) * d) = c at hc0 hc1 ⊢
  exact ⟨le_round64_of_le _ _ hp (by linarith), round64_le_of_le _ _ hT (by linarith)⟩

/-- The rig step commutes with a change of sign of position and target. -/
theorem rigStep64_neg (p T d : ℚ) : rigStep64 (-p) (-T) d = - rigStep64 p T d := by
  unfold rigStep64
  have e1 : -T - -p = -(T - p) := by ring
  rw [e1, round64_neg, neg_mul, round64_neg, neg_mul, round64_neg, ← neg_add, round64_neg]

/-- The rig step from above: mirror image of `rigStep64_between_of_le`. -/
theorem rigStep64_between_of_ge (p T d : ℚ) (hp : round64 p = p) (hT : round64 T = T)
    (hd : 0 < d) (h5 : 5 * d ≤ 1 - 1 / 2 ^ 51) (hle : T ≤ p) :
    T ≤ rigStep64 p T d ∧ rigStep64 p T d ≤ p := by
  have hp' : round64 (-p) = -p := by rw [round64_neg, hp]
  have hT' : round64 (-T) = -T := by rw [round64_neg, hT]
  have h := rigStep64_between_of_le (-p) (-T) d hp' hT' hd h5 (by linarith)
  rw [rigStep64_neg] at h
  constructor <;> linarith [h.1, h.2]

/-- Evaluation of a rounding at a value that is a whole number of units. -/
theorem round64_eval_int (x : ℚ) (e n : ℤ) (h1 : 2 ^ e ≤ |x|) (h2 : |x| < 2 ^ (e + 1))
    (he : -1022 ≤ e) (hx : x = n * 2 ^ (e - 52)) : round64 x = x := by
  have hp : (0 : ℚ) < 2 ^ (e - 52) := by positivity
  have hd : x / 2 ^ (e - 52) = n := by
    rw [div_eq_iff hp.ne']
    exact hx
  rw [round64_eval x e n h1 h2 he (by rw [hd, roundTiesEven_intCast])]
  exact hx.symm

/-- The number 1 is representable. -/
theorem round64_one : round64 1 = 1 :=
  round64_eval_int 1 0 (2 ^ 52) (by norm_num) (by norm_num) (by norm_num) (by norm_num)

/-- The number 2 is representable. -/
theorem round64_two : round64 2 = 2 :=
  round64_eval_int 2 1 (2 ^ 52) (by norm_num) (by norm_num) (by norm_num) (by norm_num)

/-- The number 4 is representable. -/
theorem round64_four : round64 4 = 4 :=
  round64_eval_int 4 2 (2 ^ 52) (by norm_num) (by norm_num) (by norm_num) (by norm_num)

/-- The number 8 is representable. -/
theorem round64_eight : round64 8 = 8 :=
  round64_eval_int 8 3 (2 ^ 52) (by norm_num) (by norm_num) (by norm_num) (by norm_num)

/-- The camera formula in binary64 at scroll offset 912 and viewport height 800. -/
theorem cameraY64_912 : cameraY64 912 800 = -(5134103575202365 / 2 ^ 50) := by
  unfold cameraY64 objectsDistance
  have h1 : round64 (-912 / 800) = -(5134103575202365 / 2 ^ 52) := by
    have := round64_eval (-912 / 800) 0 (-5134103575202365) (by norm_num [abs_of_neg])
      (by norm_num [abs_of_neg]) (by norm_num)
      (roundTiesEven_of_lt _ _ (by rw [abs_lt]; constructor <;> norm_num))
    rw [this]
    norm_num
  rw [h1]
  have h2 := round64_eval_int (-(5134103575202365 / 2 ^ 52) * 4) 2 (-5134103575202365)
    (by norm_num [abs_of_neg]) (by norm_num [abs_of_neg]) (by norm_num) (by norm_num)
  rw [h2]
  norm_num

/-- The camera formula in binary64 at scroll offset 112 and viewport height 800. -/
theorem cameraY64_112 : cameraY64 112 800 = -(5044031582654956 / 2 ^ 53) := by
  unfold cameraY64 objectsDistance
  have h1 : round64 (-112 / 800) = -(5044031582654956 / 2 ^ 55) := by
    have := round64_eval (-112 / 800) (-3) (-5044031582654956) (by norm_num [abs_of_neg])
      (by norm_num [abs_of_neg]) (by norm_num)
      (roundTiesEven_of_lt _ _ (by rw [abs_lt]; constructor <;> norm_num))
    rw [this]
    norm_num
  rw [h1]
  have h2 := round64_eval_int (-(5044031582654956 / 2 ^ 55) * 4) (-1) (-5044031582654956)
    (by norm_num [abs_of_neg]) (by norm_num [abs_of_neg]) (by norm_num) (by norm_num)
  rw [h2]
  norm_num

/-- The binary64 difference of the camera Y at offset 112 and `objectsDistance`. -/
theorem cameraY64_112_minus : round64 (cameraY64 112 800 - objectsDistance)
    = -(5134103575202366 / 2 ^ 50) := by
  rw [cameraY64_112]
  unfold objectsDistance
  have := round64_eval (-(5044031582654956 / 2 ^ 53) - 4) 2 (-5134103575202366)
    (by norm_num [abs_of_neg]) (by norm_num [abs_of_neg]) (by norm_num)
    (by
      rw [roundTiesEven_tie _ (-5134103575202366) (by norm_num)]
      decide)
  rw [this]
  norm_num

/-- A rig 6 units in the last place below the target 0.25 is left where it is by a tick
of step 0.016 (the binary64 number nearest to it); all three numbers are representable. -/
theorem rigStep64_stall :
    round64 (1 / 4 - 6 / 2 ^ 55) = 1 / 4 - 6 / 2 ^ 55 ∧
    round64 (1 / 4) = 1 / 4 ∧
    round64 (1152921504606847 / 2 ^ 56) = 1152921504606847 / 2 ^ 56 ∧
    rigStep64 (1 / 4 - 6 / 2 ^ 55) (1 / 4) (1152921504606847 / 2 ^ 56) = 1 / 4 - 6 / 2 ^ 55 := by
  refine ⟨?_, ?_, ?_, ?_⟩
  · exact round64_eval_int _ (-3) (2 ^ 53 - 6) (by norm_num [abs_of_pos])
      (by norm_num [abs_of_pos]) (by norm_num) (by norm_num)
  · exact round64_eval_int _ (-2) (2 ^ 52) (by norm_num [abs_of_pos])
      (by norm_num [abs_of_pos]) (by norm_num) (by norm_num)
  · exact round64_eval_int _ (-6) 4611686018427388 (by norm_num [abs_of_pos])
      (by norm_num [abs_of_pos]) (by norm_num) (by norm_num)
  · unfold rigStep64
    have e0 : (1 : ℚ) / 4 - (1 / 4 - 6 / 2 ^ 55) = 6 / 2 ^ 55 := by norm_num
    have ha : round64 (6 / 2 ^ 55) = 6 / 2 ^ 55 :=
      round64_eval_int _ (-53) (6 * 2 ^ 50) (by norm_num [abs_of_pos])
        (by norm_num [abs_of_pos]) (by norm_num) (by norm_num)
    have hb : round64 (6 / 2 ^ 55 * 5) = 30 / 2 ^ 55 := by
      rw [round64_eval_int _ (-51) (30 * 2 ^ 48) (by norm_num [abs_of_pos])
        (by norm_num [abs_of_pos]) (by norm_num) (by norm_num)]
      norm_num
    have hc : round64 (30 / 2 ^ 55 * (1152921504606847 / 2 ^ 56))
        = 8646911284551352 / 2 ^ 109 := by
      have := round64_eval (30 / 2 ^ 55 * (1152921504606847 / 2 ^ 56)) (-57) 8646911284551352
        (by norm_num [abs_of_pos]) (by norm_num [abs_of_pos]) (by norm_num)
        (by
          rw [roundTiesEven_tie _ 8646911284551352 (by norm_num)]
          decide)
      rw [this]
      norm_num
    rw [e0, ha, hb, hc]
    have := round64_eval (1 / 4 - 6 / 2 ^ 55 + 8646911284551352 / 2 ^ 109) (-3) (2 ^ 53 - 6)
      (by norm_num [abs_of_pos]) (by norm_num [abs_of_pos]) (by norm_num)
      (roundTiesEven_of_lt _ _ (by rw [abs_lt]; constructor <;> norm_num))
    rw [this]
    norm_num


/-- One binary64 rig step leaves the rig between its previous position and the target. -/
theorem rigStep64_between (p T d : ℚ) (hp : round64 p = p) (hT : round64 T = T)
    (hd : 0 < d) (h5 : 5 * d ≤ 1 - 1 / 2 ^ 51) :
    min p T ≤ rigStep64 p T d ∧ rigStep64 p T d ≤ max p T ∧
    |rigStep64 p T d - T| ≤ |p - T| := by
  rcases le_total p T with h | h
  · have hb := rigStep64_between_of_le p T d hp hT hd h5 h
    rw [min_eq_left h, max_eq_right h]
    refine ⟨hb.1, hb.2, ?_⟩
    rw [abs_of_nonpos (by linarith [hb.2]), abs_of_nonpos (by linarith)]
    linarith [hb.1]
  · have hb := rigStep64_between_of_ge p T d hp hT hd h5 h
    rw [min_eq_right h, max_eq_left h]
    refine ⟨hb.1, hb.2, ?_⟩
    rw [abs_of_nonneg (by linarith [hb.1]), abs_of_nonneg (by linarith)]
    linarith [hb.2]

/-- The rig step returns a representable number. -/
theorem round64_rigStep64 (p T d : ℚ) : round64 (rigStep64 p T d) = rigStep64 p T d := by
  unfold rigStep64
  exact round64_idem _

/-- From a representable start, the rig position is representable after every tick. -/
theorem runRig64_representable (cursor : Cursor) (d : ℚ) (n : Nat) (position : Vec3)
    (hx : round64 position.x = position.x) (hy : round64 position.y = position.y) :
    round64 (runRig64 cursor d n position).x = (runRig64 cursor d n position).x ∧
    round64 (runRig64 cursor d n position).y = (runRig64 cursor d n position).y := by
  cases n with
  | zero => exact ⟨hx, hy⟩
  | succ n => exact ⟨round64_rigStep64 _ _ _, round64_rigStep64 _ _ _⟩

/-- The camera formula in binary64 at the top of each of the three sections. -/
theorem cameraY64_section (h : ℚ) (hh : 0 < h) :
    cameraY64 (0 * h) h = 0 ∧ cameraY64 (1 * h) h = -4 ∧ cameraY64 (2 * h) h = -8 := by
  have hne : h ≠ 0 := hh.ne'
  have e0 : -(0 * h) / h = 0 := by simp
  have e1 : -(1 * h) / h = -1 := by field_simp
  have e2 : -(2 * h) / h = -2 := by field_simp
  unfold cameraY64 objectsDistance
  rw [e0, e1, e2]
  refine ⟨?_, ?_, ?_⟩
  · rw [round64_zero, zero_mul, round64_zero]
  · rw [round64_neg, round64_one, show (-1 : ℚ) * 4 = -4 by norm_num, round64_neg, round64_four]
  · rw [round64_neg, round64_two, show (-2 : ℚ) * 4 = -8 by norm_num, round64_neg,
      round64_eight]

/-! ## The scroll listener -/

/-- C1 (as stated, refuted): from the initial state of a 1000 × 800 window (current
section 0), a scroll notification at offset 2400 leaves the current section at 0, while
`clamp(floor(2400 / 800), 0, 2)` is 2. -/
theorem scroll_section_not_clamped :
    ((scrollListener 2400 (initialWorld 1000 800 0 1)).currentSection : ℤ) = 0 ∧
    specSectionIndex 2400 (initialWorld 1000 800 0 1).sizes.height = 2 := by
  constructor
  · rw [scrollListener_currentSection]
    norm_num [sectionStep, initialWorld]
  · have h : ((2400 : ℚ) / 800) = ((3 : ℤ) : ℚ) := by norm_num
    simp only [specSectionIndex, initialWorld, h, Int.floor_intCast, clamp, sectionCount]
    norm_num

/-- C1 (amended): for every viewport height `h > 0`, every scroll offset `s` and every
previous current section, after the scroll listener the current section index is
`clamp(floor(s / h), 0, sectionCount - 1)` when `0 ≤ s < 3 * h`, and is the previous
value otherwise. -/
theorem scroll_section_index (s : ℚ) (w : World) (hh : 0 < w.sizes.height) :
    ((scrollListener s w).currentSection : ℤ) =
      if 0 ≤ s ∧ s < 3 * w.sizes.height then specSectionIndex s w.sizes.height
      else (w.currentSection : ℤ) := by
  rw [scrollListener_currentSection]
  split_ifs with hin
  · have hfl := sectionStep_inside s w.sizes.height w.currentSection hh hin.1 hin.2
    have h0 : (0 : ℤ) ≤ ⌊s / w.sizes.height⌋ := Int.floor_nonneg.2 (div_nonneg hin.1 hh.le)
    have h2 : ⌊s / w.sizes.height⌋ ≤ 2 := by
      have : ⌊s / w.sizes.height⌋ < 3 := by
        rw [Int.floor_lt]
        have := (div_lt_iff₀ hh).2 hin.2
        simpa using this
      omega
    rw [hfl, specSectionIndex, clamp_of_mem _ h0 h2]
  · have ho : s < 0 ∨ 3 * w.sizes.height ≤ s := by
      by_cases h0 : 0 ≤ s
      · exact Or.inr (not_lt.1 (fun hc => hin ⟨h0, hc⟩))
      · exact Or.inl (not_le.1 h0)
    rw [sectionStep_outside s w.sizes.height w.currentSection hh ho]

/-- Witness of `scroll_section_index`: viewport 1000 × 800, scroll offset 1000. -/
theorem scroll_section_index_witness :
    (0 : ℚ) < (initialWorld 1000 800 0 1).sizes.height ∧
    ((scrollListener 1000 (initialWorld 1000 800 0 1)).currentSection : ℤ) =
      if (0 : ℚ) ≤ 1000 ∧ (1000 : ℚ) < 3 * (initialWorld 1000 800 0 1).sizes.height then
        specSectionIndex 1000 (initialWorld 1000 800 0 1).sizes.height
      else ((initialWorld 1000 800 0 1).currentSection : ℤ) :=
  ⟨by norm_num [initialWorld],
    scroll_section_index 1000 (initialWorld 1000 800 0 1) (by norm_num [initialWorld])⟩

/-- C2 (as stated, refuted): from the initial state of a 1000 × 800 window, a scroll
notification at offset 100 leaves the current section index at 0 and still starts a
kick on mesh 0. -/
theorem scroll_kick_without_section_change :
    (scrollListener 100 (initialWorld 1000 800 0 1)).currentSection
      = (initialWorld 1000 800 0 1).currentSection ∧
    (scrollListener 100 (initialWorld 1000 800 0 1)).tweens
      = (initialWorld 1000 800 0 1).tweens ++ [kick 0] := by
  have hc : (scrollListener 100 (initialWorld 1000 800 0 1)).currentSection = 0 := by
    rw [scrollListener_currentSection]
    norm_num [sectionStep, initialWorld]
  refine ⟨hc, ?_⟩
  rw [scrollListener_tweens _ _ (by rw [hc]; decide), hc]

/-- C2 (amended): in every state the script can reach, every scroll notification starts
exactly one kick (6, 3 and 1.5 added to rotation x, y, z over 1.5 s), on the mesh of the
section that is current after the notification, whether the index changed or not. -/
theorem scroll_starts_one_kick (iw ih y0 dpr : ℚ) (events : List Event) (s : ℚ) :
    (scrollListener s (run events (initialWorld iw ih y0 dpr))).tweens
      = (run events (initialWorld iw ih y0 dpr)).tweens
          ++ [kick (scrollListener s (run events (initialWorld iw ih y0 dpr))).currentSection]
    ∧ ∀ i, (kick i).target = i ∧ (kick i).x = 6 ∧ (kick i).y = 3 ∧ (kick i).z = 1.5 := by
  constructor
  · apply scrollListener_tweens
    have h0 : (initialWorld iw ih y0 dpr).currentSection < 3 := by
      show 0 < 3
      decide
    exact step_currentSection_lt _ (Event.scroll s) (run_currentSection_lt events _ h0)
  · intro i
    exact ⟨rfl, rfl, rfl, rfl⟩

/-! ## The camera rig -/

/-- C3 (as stated, refuted): with the pointer at the right edge (cursor.x = 0.5, target
0.25), a rig at 0.25 - 6 * 2^-55 and the step `d = 0.016` (the binary64 number nearest
to it, `0 < d`, `5 * d < 1`), the tick leaves the rig exactly where it is: the distance
to the target is not strictly smaller after the tick, and every later tick repeats it,
so the position does not converge to the target.  Likewise a rig that starts on its
target (the initial state: both 0) keeps distance 0. -/
theorem rig_stalls_short_of_target :
    round64 (1 / 4 - 6 / 2 ^ 55) = 1 / 4 - 6 / 2 ^ 55 ∧
    round64 (1152921504606847 / 2 ^ 56) = 1152921504606847 / 2 ^ 56 ∧
    (0 : ℚ) < 1152921504606847 / 2 ^ 56 ∧ 5 * (1152921504606847 / 2 ^ 56 : ℚ) < 1 ∧
    parallaxX64 ⟨1 / 2, 0⟩ = 1 / 4 ∧
    (1 / 4 - 6 / 2 ^ 55 : ℚ) ≠ 1 / 4 ∧
    rigStep64 (1 / 4 - 6 / 2 ^ 55) (parallaxX64 ⟨1 / 2, 0⟩) (1152921504606847 / 2 ^ 56)
      = 1 / 4 - 6 / 2 ^ 55 ∧
    rigStep64 0 (parallaxX64 ⟨0, 0⟩) (1152921504606847 / 2 ^ 56) = 0 := by
  have hT : parallaxX64 ⟨1 / 2, 0⟩ = 1 / 4 := by
    unfold parallaxX64
    rw [show ((1 : ℚ) / 2) * 0.5 = 1 / 4 by norm_num]
    exact rigStep64_stall.2.1
  have hT0 : parallaxX64 ⟨0, 0⟩ = 0 := by
    unfold parallaxX64
    rw [zero_mul, round64_zero]
  refine ⟨rigStep64_stall.1, rigStep64_stall.2.2.1, by norm_num, by norm_num, hT, by norm_num,
    ?_, ?_⟩
  · rw [hT]
    exact rigStep64_stall.2.2.2
  · rw [hT0]
    unfold rigStep64
    rw [sub_zero, round64_zero, zero_mul, round64_zero, zero_mul, round64_zero, add_zero,
      round64_zero]

/-- C3 (amended): for every cursor (target `T` the parallax value derived from it), every
binary64 starting position and every fixed step `d` with `0 < d` and
`5 * d ≤ 1 - 2^-51`, on each of the x and y axes and for every `n`: the rig position
after tick `n + 1`, computed in binary64, lies between the position after tick `n` and
`T`, so the distance to `T` after a tick is never larger than before it.  The magnitude
bounds keep every intermediate result below the overflow threshold of binary64. -/
theorem rig_smoothing_between (cursor : Cursor) (d : ℚ) (position : Vec3) (n : Nat)
    (hx : round64 position.x = position.x) (hy : round64 position.y = position.y)
    (hd : 0 < d) (h5 : 5 * d ≤ 1 - 1 / 2 ^ 51)
    (_hpx : |position.x| ≤ 2 ^ 1000) (_hpy : |position.y| ≤ 2 ^ 1000)
    (_hcx : |cursor.x| ≤ 2 ^ 1000) (_hcy : |cursor.y| ≤ 2 ^ 1000) :
    (min (runRig64 cursor d n position).x (parallaxX64 cursor)
        ≤ (runRig64 cursor d (n + 1) position).x ∧
      (runRig64 cursor d (n + 1) position).x
        ≤ max (runRig64 cursor d n position).x (parallaxX64 cursor) ∧
      |(runRig64 cursor d (n + 1) position).x - parallaxX64 cursor|
        ≤ |(runRig64 cursor d n position).x - parallaxX64 cursor|) ∧
    (min (runRig64 cursor d n position).y (parallaxY64 cursor)
        ≤ (runRig64 cursor d (n + 1) position).y ∧
      (runRig64 cursor d (n + 1) position).y
        ≤ max (runRig64 cursor d n position).y (parallaxY64 cursor) ∧
      |(runRig64 cursor d (n + 1) position).y - parallaxY64 cursor|
        ≤ |(runRig64 cursor d n position).y - parallaxY64 cursor|) := by
  have hr := runRig64_representable cursor d n position hx hy
  have hTx : round64 (parallaxX64 cursor) = parallaxX64 cursor := by
    unfold parallaxX64
    exact round64_idem _
  have hTy : round64 (parallaxY64 cursor) = parallaxY64 cursor := by
    unfold parallaxY64
    exact round64_idem _
  exact ⟨rigStep64_between _ _ d hr.1 hTx hd h5, rigStep64_between _ _ d hr.2 hTy hd h5⟩

/-- Witness of `rig_smoothing_between`: pointer at the right edge (target 0.25), rig at
the origin, step `d = 0.125`, first tick. -/
theorem rig_smoothing_between_witness :
    (0 : ℚ) < 1 / 8 ∧ 5 * (1 / 8 : ℚ) ≤ 1 - 1 / 2 ^ 51 ∧
    |(runRig64 ⟨1 / 2, 0⟩ (1 / 8) (0 + 1) ⟨0, 0, 0⟩).x - parallaxX64 ⟨1 / 2, 0⟩|
      ≤ |(runRig64 ⟨1 / 2, 0⟩ (1 / 8) 0 ⟨0, 0, 0⟩).x - parallaxX64 ⟨1 / 2, 0⟩| :=
  ⟨by norm_num, by norm_num,
    (rig_smoothing_between ⟨1 / 2, 0⟩ (1 / 8) ⟨0, 0, 0⟩ 0 round64_zero round64_zero
      (by norm_num) (by norm_num) (by norm_num) (by norm_num) (by norm_num [abs_of_pos])
      (by norm_num)).1.2.2⟩

/-! ## The camera dolly -/

/-- C4: for every scroll offset and every viewport height `h > 0` the camera Y written by
a tick is `-(s / h) * objectsDistance` with `objectsDistance = 4`, whatever the rest of
the state and the elapsed time; two ticks on states with the same scroll offset and
viewport height write the same camera Y. -/
theorem camera_y_pure (t t' : ℚ) (w w' : World) (_hh : 0 < w.sizes.height)
    (hs : w'.scrollY = w.scrollY) (hv : w'.sizes.height = w.sizes.height) :
    (tick t w).camera.position.y = -(w.scrollY / w.sizes.height) * objectsDistance ∧
    objectsDistance = 4 ∧
    (tick t' w').camera.position.y = (tick t w).camera.position.y := by
  refine ⟨?_, rfl, ?_⟩
  · rw [tick_camera_y, neg_div]
  · rw [tick_camera_y, tick_camera_y, hs, hv]

/-- Witness of `camera_y_pure`: two states of a 1000 × 800 window scrolled to 1600 that
differ in cursor, rig history and clock. -/
theorem camera_y_pure_witness :
    (tick 1 (scrollListener 1600 (initialWorld 1000 800 0 1))).camera.position.y
        = -((scrollListener 1600 (initialWorld 1000 800 0 1)).scrollY
              / (scrollListener 1600 (initialWorld 1000 800 0 1)).sizes.height)
            * objectsDistance ∧
    objectsDistance = 4 ∧
    (tick 7 (mousemoveListener 3 5 (tick 2 (initialWorld 1000 800 1600 2)))).camera.position.y
        = (tick 1 (scrollListener 1600 (initialWorld 1000 800 0 1))).camera.position.y :=
  camera_y_pure 1 7 (scrollListener 1600 (initialWorld 1000 800 0 1))
    (mousemoveListener 3 5 (tick 2 (initialWorld 1000 800 1600 2)))
    (by norm_num [scrollListener, initialWorld]) rfl rfl

/-- C10 (as stated, refuted): with viewport height 800, the camera Y computed at scroll
offset 112 + 800 is -5134103575202365 / 2^50 (printed -4.56), while the camera Y at
offset 112 minus `objectsDistance` is -5134103575202366 / 2^50 when the subtraction is
done in binary64 (printed -4.5600000000000005) and -10268207150404731 / 2^51 when it is
exact: one full viewport height of scroll does not lower the camera by exactly 4. -/
theorem camera_shift_not_exact :
    cameraY64 (112 + 800) 800 = -(5134103575202365 / 2 ^ 50) ∧
    round64 (cameraY64 112 800 - objectsDistance) = -(5134103575202366 / 2 ^ 50) ∧
    cameraY64 112 800 - objectsDistance = -(10268207150404731 / 2 ^ 51) ∧
    cameraY64 (112 + 800) 800 ≠ round64 (cameraY64 112 800 - objectsDistance) ∧
    cameraY64 (112 + 800) 800 ≠ cameraY64 112 800 - objectsDistance := by
  have h1 : cameraY64 (112 + 800) 800 = -(5134103575202365 / 2 ^ 50) := by
    rw [show (112 : ℚ) + 800 = 912 by norm_num]
    exact cameraY64_912
  have h2 := cameraY64_112_minus
  have h3 : cameraY64 112 800 - objectsDistance = -(10268207150404731 / 2 ^ 51) := by
    rw [cameraY64_112]
    norm_num [objectsDistance]
  refine ⟨h1, h2, h3, ?_, ?_⟩
  · rw [h1, h2]
    norm_num
  · rw [h1, h3]
    norm_num

/-- C10 (amended): in every reachable state with viewport height `h > 0`, for each section
index `i` in 0, 1, 2 the camera Y computed by `tick` at scroll offset `i * h` (in binary64
as well as in exact arithmetic) is the vertical position of section mesh `i`, which is
`-objectsDistance * i` with `objectsDistance = 4`: from the top of one section to the top
of the next, one viewport height of scroll lowers the camera by exactly 4. -/
theorem scroll_section_tops (iw ih y0 dpr : ℚ) (events : List Event) (t : ℚ)
    (hh : 0 < (run events (initialWorld iw ih y0 dpr)).sizes.height) :
    (List.range 3).map (fun i : Nat =>
        cameraY64 ((i : ℚ) * (run events (initialWorld iw ih y0 dpr)).sizes.height)
          (run events (initialWorld iw ih y0 dpr)).sizes.height)
      = (sectionMeshes (run events (initialWorld iw ih y0 dpr))).map (fun m => m.position.y) ∧
    (List.range 3).map (fun i : Nat =>
        (tick t (scrollListener ((i : ℚ) * (run events (initialWorld iw ih y0 dpr)).sizes.height)
          (run events (initialWorld iw ih y0 dpr)))).camera.position.y)
      = (sectionMeshes (run events (initialWorld iw ih y0 dpr))).map (fun m => m.position.y) ∧
    (sectionMeshes (run events (initialWorld iw ih y0 dpr))).map (fun m => m.position.y)
      = (List.range 3).map (fun i : Nat => - objectsDistance * (i : ℚ)) ∧
    objectsDistance = 4 := by
  have hpos : (sectionMeshes (run events (initialWorld iw ih y0 dpr))).map (fun m => m.position.y)
      = [- objectsDistance * 0, - objectsDistance * 1, - objectsDistance * 2] := by
    have h := congrArg (List.map Vec3.y) (run_mesh_position events (initialWorld iw ih y0 dpr))
    simpa [sectionMeshes, initialWorld] using h
  generalize run events (initialWorld iw ih y0 dpr) = w at hh hpos ⊢
  have hne : w.sizes.height ≠ 0 := hh.ne'
  have hc := cameraY64_section w.sizes.height hh
  refine ⟨?_, ?_, ?_, rfl⟩
  · rw [hpos]
    simp only [List.range_succ, List.range_zero, List.map_append, List.map_cons, List.map_nil,
      List.nil_append, List.cons_append, List.singleton_append, Nat.cast_zero, Nat.cast_one,
      Nat.cast_ofNat]
    rw [hc.1, hc.2.1, hc.2.2]
    norm_num [objectsDistance]
  · rw [hpos]
    simp only [tick_camera_y, scrollListener_scrollY, scrollListener_sizes, List.range_succ,
      List.range_zero, List.map_append, List.map_cons, List.map_nil, List.nil_append,
      List.cons_append, List.singleton_append]
    simp only [List.cons.injEq, and_true]
    refine ⟨?_, ?_, ?_⟩ <;> first | (field_simp; ring) | field_simp
  · rw [hpos]
    simp [List.range_succ]

/-- Witness of `scroll_section_tops`: the initial state of a 1000 × 800 window. -/
theorem scroll_section_tops_witness :
    (0 : ℚ) < (run [] (initialWorld 1000 800 0 1)).sizes.height ∧
    (List.range 3).map (fun i : Nat =>
        cameraY64 ((i : ℚ) * (run [] (initialWorld 1000 800 0 1)).sizes.height)
          (run [] (initialWorld 1000 800 0 1)).sizes.height)
      = (sectionMeshes (run [] (initialWorld 1000 800 0 1))).map (fun m => m.position.y) :=
  ⟨by norm_num [run, initialWorld],
    (scroll_section_tops 1000 800 0 1 [] 1 (by norm_num [run, initialWorld])).1⟩

/-! ## The debug panel -/

/-- C5: for every color value `V`, the change handler run with
`parameters.materialColor = V` leaves the toon material's color and the particle
material's color both equal to `V`; and after any sequence of events from the start
(color edits included) the two materials hold the same color. -/
theorem color_edit_shared (v : Color) (w : World) (iw ih y0 dpr : ℚ) (events : List Event) :
    (onChange { w with materialColor := v }).materialColorValue = v ∧
    (onChange { w with materialColor := v }).particlesColorValue = v ∧
    (run events (initialWorld iw ih y0 dpr)).materialColorValue
      = (run events (initialWorld iw ih y0 dpr)).particlesColorValue :=
  ⟨rfl, rfl, run_colors_equal events _ rfl⟩

/-! ## The per-frame rotation -/

/-- C6: for every tick whose delta (elapsed time minus previous elapsed time) is not
negative, every section mesh with rotation `r` ends the tick with rotation
`(r.x + delta * 0.1, r.y + delta * 0.12, r.z)`. -/
theorem tick_rotation_linear (t : ℚ) (w : World) (_hd : 0 ≤ t - w.previousTime) :
    (sectionMeshes (tick t w)).map Mesh.rotation
      = (sectionMeshes w).map (fun m =>
          Vec3.mk (m.rotation.x + (t - w.previousTime) * 0.1)
            (m.rotation.y + (t - w.previousTime) * 0.12) m.rotation.z) := by
  rfl

/-- Witness of `tick_rotation_linear`: the first tick, one second after the start. -/
theorem tick_rotation_linear_witness :
    (0 : ℚ) ≤ 1 - (initialWorld 1000 800 0 1).previousTime ∧
    (sectionMeshes (tick 1 (initialWorld 1000 800 0 1))).map Mesh.rotation
      = (sectionMeshes (initialWorld 1000 800 0 1)).map (fun m =>
          Vec3.mk (m.rotation.x + (1 - (initialWorld 1000 800 0 1).previousTime) * 0.1)
            (m.rotation.y + (1 - (initialWorld 1000 800 0 1).previousTime) * 0.12)
            m.rotation.z) :=
  ⟨by norm_num [initialWorld],
    tick_rotation_linear 1 (initialWorld 1000 800 0 1) (by norm_num [initialWorld])⟩

/-! ## End-to-end scenarios -/

/-- C7: with viewport 1000 × 800, a scroll notification at offset 1600 from the initial
state (current section 0) selects current section 2, and the next tick, at whatever
elapsed time, sets the camera Y to -8. -/
theorem scenario_scroll_1600 (t : ℚ) :
    (initialWorld 1000 800 0 1).currentSection = 0 ∧
    (scrollListener 1600 (initialWorld 1000 800 0 1)).currentSection = 2 ∧
    (tick t (scrollListener 1600 (initialWorld 1000 800 0 1))).camera.position.y = -8 := by
  refine ⟨rfl, ?_, ?_⟩
  · rw [scrollListener_currentSection]
    norm_num [sectionStep, initialWorld]
  · rw [tick_camera_y, scrollListener_scrollY, scrollListener_sizes]
    norm_num [initialWorld, objectsDistance]

/-- C8: with viewport 800 × 600, a pointer-move notification at (500, 400) sets the
cursor offset to (500/800 - 0.5, 400/600 - 0.5) = (0.125, 1/6), and the parallax target
of the next tick is (0.0625, -1/12); 1/6 and 1/12 round to 0.1667 and 0.0833. -/
theorem scenario_pointer_500_400 :
    (mousemoveListener 500 400 (initialWorld 800 600 0 1)).cursor
      = ⟨500 / 800 - 0.5, 400 / 600 - 0.5⟩ ∧
    (mousemoveListener 500 400 (initialWorld 800 600 0 1)).cursor = ⟨0.125, 1 / 6⟩ ∧
    parallaxX (mousemoveListener 500 400 (initialWorld 800 600 0 1)) = 0.0625 ∧
    parallaxY (mousemoveListener 500 400 (initialWorld 800 600 0 1)) = -(1 / 12) ∧
    |(1 / 6 : ℚ) - 0.1667| < 0.00005 ∧ |(1 / 12 : ℚ) - 0.0833| < 0.00005 := by
  refine ⟨rfl, ?_, ?_, ?_, ?_, ?_⟩
  · norm_num [mousemoveListener, initialWorld]
  · norm_num [parallaxX, mousemoveListener, initialWorld]
  · norm_num [parallaxY, mousemoveListener, initialWorld]
  · rw [abs_lt]; constructor <;> norm_num
  · rw [abs_lt]; constructor <;> norm_num

/-! ## The cursor tracker -/

/-- C9: for every viewport width `w > 0` and height `h > 0` the pointer-move listener
sets the cursor offset to `(px / w - 0.5, py / h - 0.5)`; a component lies in
`[-0.5, 0.5]` exactly when the pointer coordinate lies in the viewport (`0 ≤ px ≤ w`,
`0 ≤ py ≤ h`), so nothing is clamped; and the offset is `(0, 0)` at the viewport
center. -/
theorem cursor_offset_normalised (px py : ℚ) (w : World)
    (hw : 0 < w.sizes.width) (hh : 0 < w.sizes.height) :
    (mousemoveListener px py w).cursor
      = ⟨px / w.sizes.width - 0.5, py / w.sizes.height - 0.5⟩ ∧
    ((0 ≤ px ∧ px ≤ w.sizes.width) ↔
      (-0.5 ≤ (mousemoveListener px py w).cursor.x ∧
        (mousemoveListener px py w).cursor.x ≤ 0.5)) ∧
    ((0 ≤ py ∧ py ≤ w.sizes.height) ↔
      (-0.5 ≤ (mousemoveListener px py w).cursor.y ∧
        (mousemoveListener px py w).cursor.y ≤ 0.5)) ∧
    (mousemoveListener (w.sizes.width / 2) (w.sizes.height / 2) w).cursor = ⟨0, 0⟩ := by
  have key : ∀ p v : ℚ, 0 < v → ((0 ≤ p ∧ p ≤ v) ↔ (-0.5 ≤ p / v - 0.5 ∧ p / v - 0.5 ≤ 0.5)) := by
    intro p v hv
    have e1 : (-0.5 ≤ p / v - 0.5) ↔ 0 ≤ p := by
      rw [show (-0.5 ≤ p / v - 0.5) ↔ 0 ≤ p / v by constructor <;> intro h <;> linarith]
      exact div_nonneg_iff.trans (by
        constructor
        · rintro (⟨h, _⟩ | ⟨_, h⟩)
          · exact h
          · exact absurd hv (not_lt.2 h)
        · intro h
          exact Or.inl ⟨h, hv.le⟩)
    have e2 : (p / v - 0.5 ≤ 0.5) ↔ p ≤ v := by
      rw [show (p / v - 0.5 ≤ 0.5) ↔ p / v ≤ 1 by
        constructor <;> intro h <;> norm_num at h ⊢ <;> linarith]
      exact div_le_one hv
    rw [e1, e2]
  refine ⟨rfl, key px _ hw, key py _ hh, ?_⟩
  have h1 : w.sizes.width / 2 / w.sizes.width = 0.5 := by
    field_simp
    ring
  have h2 : w.sizes.height / 2 / w.sizes.height = 0.5 := by
    field_simp
    ring
  simp only [mousemoveListener, h1, h2, sub_self]

/-- Witness of `cursor_offset_normalised`: viewport 800 × 600, pointer at (900, 300),
right of the viewport and vertically centered. -/
theorem cursor_offset_normalised_witness :
    (0 : ℚ) < (initialWorld 800 600 0 1).sizes.width ∧
    (0 : ℚ) < (initialWorld 800 600 0 1).sizes.height ∧
    (mousemoveListener 900 300 (initialWorld 800 600 0 1)).cursor
      = ⟨900 / (initialWorld 800 600 0 1).sizes.width - 0.5,
          300 / (initialWorld 800 600 0 1).sizes.height - 0.5⟩ :=
  ⟨by norm_num [initialWorld], by norm_num [initialWorld],
    (cursor_offset_normalised 900 300 (initialWorld 800 600 0 1)
      (by norm_num [initialWorld]) (by norm_num [initialWorld])).1⟩

end ScrollAnimation
